import Mathlib

/-!
Verification of the Basic Memory sync core against its natural-language
specification.  The Python sources are shallowly embedded: pure string
manipulation is modelled over `List Char`, SQL pattern matching (`ilike`)
by an executable matcher, floating-point relevance scores by rationals
(the only operations used are multiplications by 0.5 and 0.2, which are
exact), and the sha256 content hash by an injective identity map on file
contents.  Stateful services are modelled as explicit state-passing
functions.
-/

namespace BasicMemory

/-! ## String primitives (shared) -/

/-- Lowercase a character sequence (Python `str.lower` restricted to the
ASCII identifiers appearing in permalinks and titles). -/
def lowerChars (l : List Char) : List Char := l.map Char.toLower

/-- Split a character sequence at every occurrence of a separator
character, keeping empty pieces (Python `str.split(sep)`). -/
def splitOnChar (sep : Char) : List Char → List (List Char)
  | [] => [[]]
  | c :: cs =>
    match splitOnChar sep cs with
    | [] => [[c]]
    | h :: t => if c = sep then [] :: h :: t else (c :: h) :: t

/-- Split at whitespace and drop empty pieces (Python `str.split()`
with no argument). -/
def splitWhitespace (l : List Char) : List (List Char) :=
  ((splitOnChar ' ' l).map fun w => w.filter (fun c => ¬ c.isWhitespace)).filter
    (fun w => ¬ w.isEmpty)

/-- Python's `in` operator on strings: substring containment, i.e. the
needle is a prefix of some suffix of the haystack. -/
def substrContains (hay needle : List Char) : Bool :=
  hay.tails.any (fun t => needle.isPrefixOf t)

/-! ## Link resolver (`services/link_resolver.py`) -/

/-- A row returned by the search service: a relevance `score` (lower is
closer) and the entity `permalink`.  Scores are modelled as rationals. -/
structure SearchResult where
  score : ℚ
  permalink : String
deriving DecidableEq

/-- The score adjustment performed for one search result inside
`LinkResolver._select_best_match` (`link_resolver.py` lines 106-123):
split the lowered search text into whitespace tokens, take the last `/`
component of the lowered permalink, multiply the score by 0.5 once if the
list of tokens occurring in that last component is nonempty, and by 0.2
if the last component equals the lowered search text. -/
def adjustScore (searchText : String) (r : SearchResult) : ℚ :=
  let terms := splitWhitespace (lowerChars searchText.data)
  let pathParts := splitOnChar '/' (lowerChars r.permalink.data)
  let lastPart := pathParts.getLastD []
  let termMatches := terms.filter (fun t => substrContains lastPart t)
  let score1 := if ¬ termMatches.isEmpty then r.score * (1/2) else r.score
  if lastPart = lowerChars searchText.data then score1 * (1/5) else score1

/-- The number of search-text tokens occurring in the last permalink
component; the spec's wording multiplies the score by 0.5 once per such
token. -/
def matchingTokenCount (searchText : String) (r : SearchResult) : Nat :=
  let terms := splitWhitespace (lowerChars searchText.data)
  let pathParts := splitOnChar '/' (lowerChars r.permalink.data)
  let lastPart := pathParts.getLastD []
  (terms.filter (fun t => substrContains lastPart t)).length

/-- The score the specification's words predict: the base score times
`0.5 ^ k` for `k` matching tokens, times 0.2 on an exact match of the
last permalink component. -/
def specPredictedScore (searchText : String) (r : SearchResult) : ℚ :=
  let lastPart := (splitOnChar '/' (lowerChars r.permalink.data)).getLastD []
  let base := r.score * (1/2) ^ matchingTokenCount searchText r
  if lastPart = lowerChars searchText.data then base * (1/5) else base

/-- `LinkResolver._select_best_match` (`link_resolver.py` lines 104-127):
score every result, sort by adjusted score with `reverse=True` (a stable
descending sort), and return the first element.  Equivalently: the
earliest result whose adjusted score is strictly greater than every later
result's and at least every earlier result's.  Modelled as a left fold
that replaces the current best only on a strictly greater adjusted
score. -/
def selectBestMatch (searchText : String) (results : List SearchResult) :
    Option SearchResult :=
  results.foldl
    (fun best r =>
      match best with
      | none => some r
      | some b =>
        if adjustScore searchText r > adjustScore searchText b then some r else some b)
    none

/-! ## Entity repository (`repository/entity_repository.py`) -/

/-- SQL `LIKE` pattern matching over lowercased text (`ilike`): `%`
matches any sequence of characters, `_` matches any single character,
every other pattern character matches itself. -/
def likeMatch : List Char → List Char → Bool
  | [], s => s.isEmpty
  | c :: ps, s =>
    if c = '%' then s.tails.any (fun s2 => likeMatch ps s2)
    else
      match s with
      | [] => false
      | c2 :: s2 => if c = '_' then likeMatch ps s2 else c = c2 && likeMatch ps s2

/-- `field.ilike(f"%query%")`: wrap the query in `%` wildcards and match
case-insensitively. -/
def ilikeContains (field query : List Char) : Bool :=
  likeMatch (lowerChars ('%' :: query ++ ['%'])) (lowerChars field)

/-- An entity row as consulted by `EntityRepository.search`: name, type,
nullable description and the contents of its observations. -/
structure EntityRec where
  name : String
  entity_type : String
  description : Option String
  observations : List String
deriving DecidableEq

/-- The `WHERE` clause of `EntityRepository.search`
(`entity_repository.py` lines 83-92): an `OR` of four `ilike`
comparisons against `%query%`; a `NULL` description compares as
not-matched. -/
def entityMatchesQuery (q : String) (e : EntityRec) : Bool :=
  ilikeContains e.name.data q.data ||
  ilikeContains e.entity_type.data q.data ||
  (match e.description with
   | some d => ilikeContains d.data q.data
   | none => false) ||
  e.observations.any (fun o => ilikeContains o.data q.data)

/-- `EntityRepository.search` over the stored entity list. -/
def searchEntities (db : List EntityRec) (q : String) : List EntityRec :=
  db.filter (entityMatchesQuery q)

/-- The membership condition as the claim words it: the query occurs
case-insensitively as a plain substring of the name, the entity type,
the description, or some observation content. -/
def entityMatchesSubstring (q : String) (e : EntityRec) : Bool :=
  substrContains (lowerChars e.name.data) (lowerChars q.data) ||
  substrContains (lowerChars e.entity_type.data) (lowerChars q.data) ||
  (match e.description with
   | some d => substrContains (lowerChars d.data) (lowerChars q.data)
   | none => false) ||
  e.observations.any (fun o => substrContains (lowerChars o.data) (lowerChars q.data))

/-- A character sequence free of SQL `LIKE` wildcards. -/
def wildcardFree (l : List Char) : Bool :=
  l.all (fun c => c ≠ '%' && c ≠ '_')

/-- A row as consulted by the batch path-id operations. -/
structure PathEntity where
  id : Nat
  path_id : String
deriving DecidableEq

/-- `EntityRepository.find_by_path_ids` (`entity_repository.py` lines
118-129).  Returns the matching rows together with the number of storage
queries issued: the empty input is answered with no query at all. -/
def find_by_path_ids (db : List PathEntity) (path_ids : List String) :
    List PathEntity × Nat :=
  if path_ids.isEmpty then ([], 0)
  else (db.filter (fun e => path_ids.contains e.path_id), 1)

/-- `EntityRepository.delete_by_path_ids` (`entity_repository.py` lines
131-144).  Returns the deleted-row count, the store afterwards, and the
number of storage queries issued; the empty input issues none and leaves
the store untouched. -/
def delete_by_path_ids (db : List PathEntity) (path_ids : List String) :
    Nat × List PathEntity × Nat :=
  if path_ids.isEmpty then (0, db, 0)
  else
    let found := (find_by_path_ids db path_ids).1
    if found.isEmpty then (0, db, 1)
    else
      let ids := found.map (fun e => e.id)
      ((db.filter (fun e => ids.contains e.id)).length,
        db.filter (fun e => ¬ ids.contains e.id), 2)

/-! ## Context builder (`mcp/tools/build_context.py` and the context
service exercised by `tests/services/test_context_service.py`) -/

/-- The query parameters the `build_context` MCP tool forwards to the
`/memory/` API route (`build_context.py` lines 33-40 and 76-86).  The
Python signature reads `depth: Optional[int] = 1`, so a call without an
explicit depth argument forwards `depth = 1`. -/
structure ContextParams where
  depth : Option Nat
  timeframe : String
  page : Nat
  page_size : Nat
  max_related : Nat
deriving DecidableEq

/-- Assemble the forwarded parameters from the tool's arguments, using
the signature defaults for every omitted argument. -/
def buildContextParams (depth : Option Nat) (timeframe : String)
    (page page_size max_related : Nat) : ContextParams :=
  { depth := depth, timeframe := timeframe, page := page,
    page_size := page_size, max_related := max_related }

/-- A `build_context(url)` call with every optional argument omitted:
the defaults of the Python signature apply. -/
def buildContextDefaultCall : ContextParams :=
  buildContextParams (some 1) "7d" 1 10 10

inductive SearchItemType
  | entity
  | observation
  | relation
deriving DecidableEq

/-- A search-index row as traversed by the context service: its id and
type, the owning entity for observation rows, the endpoints for relation
rows, and the `updated_at` instant (modelled as an integer timestamp). -/
structure ContextRow where
  id : Nat
  type : SearchItemType
  entityId : Option Nat
  fromId : Option Nat
  toId : Option Nat
  updatedAt : Int
deriving DecidableEq

/-- A traversal node: a typed id, as in the `(type, id)` pairs the
context-service tests pass to `find_connected`. -/
abbrev ContextNode := SearchItemType × Nat

/-- Modelled from the spec: `ContextService.find_connected` is not under
`src/` (only its tests are).  One BFS hop per §4.H step 3: an entity
reaches its observations and its incident relations, a relation reaches
its two endpoint entities, an observation reaches nothing. -/
def contextNeighbors (rows : List ContextRow) (n : ContextNode) :
    List ContextNode :=
  match n.1 with
  | .entity =>
    (rows.filter (fun r => r.type = .observation ∧ r.entityId = some n.2)).map
        (fun r => (SearchItemType.observation, r.id)) ++
      (rows.filter
          (fun r => r.type = .relation ∧ (r.fromId = some n.2 ∨ r.toId = some n.2))).map
        (fun r => (SearchItemType.relation, r.id))
  | .relation =>
    (rows.filter (fun r => r.type = .relation ∧ r.id = n.2)).flatMap
      (fun r =>
        (match r.toId with
         | some t => [(SearchItemType.entity, t)]
         | none => []) ++
          match r.fromId with
          | some f => [(SearchItemType.entity, f)]
          | none => [])
  | .observation => []

/-- The index row backing a traversal node, when present. -/
def rowFor (rows : List ContextRow) (n : ContextNode) : Option ContextRow :=
  rows.find? (fun r => r.type = n.1 ∧ r.id = n.2)

/-- Modelled from the spec: §4.H step 4, a node is admitted only when its
`updated_at` is at or after the `since` cutoff (nodes without an index
row are never admitted; no cutoff admits everything). -/
def nodeAdmitted (rows : List ContextRow) (since : Option Int)
    (n : ContextNode) : Bool :=
  match since with
  | none => true
  | some s =>
    match rowFor rows n with
    | some r => s ≤ r.updatedAt
    | none => false

/-- Modelled from the spec: the BFS expansion of §4.H step 3 with the
admission filter of step 4 applied at every hop, so that every
intermediate node on a path from a primary must itself be admitted. -/
def findConnectedAux (rows : List ContextRow) (since : Option Int) :
    Nat → List ContextNode → List ContextNode → List ContextNode
  | 0, visited, _ => visited
  | d + 1, visited, frontier =>
    let next :=
      ((frontier.flatMap (contextNeighbors rows)).filter
          (fun n => nodeAdmitted rows since n && ¬ visited.contains n)).dedup
    findConnectedAux rows since d (visited ++ next) next

/-- Modelled from the spec: `ContextService.find_connected`, a
depth-bounded traversal from the primary nodes. -/
def find_connected (rows : List ContextRow) (since : Option Int)
    (maxDepth : Nat) (start : List ContextNode) : List ContextNode :=
  findConnectedAux rows since maxDepth start start

/-! ## Forward-reference resolution (`tests/sync/test_sync_service.py`,
`test_forward_reference_resolution`) -/

/-- A stored relation row: source entity id, nullable target id (null =
forward reference), the textual target, and the relation type. -/
structure RelationRec where
  fromId : Nat
  toId : Option Nat
  toName : String
  relationType : String
deriving DecidableEq

/-- The identifying attributes of a materialized entity. -/
structure EntityRef where
  id : Nat
  permalink : String
  title : String
deriving DecidableEq

/-- Modelled from the spec: `EntitySyncService.update_entity_relations`
and the store's `resolve_pending` are not under `src/`.  When an entity
materializes, every unresolved relation whose `to_name` equals the new
entity's permalink or title is bound to it.  The repository's own test
(`test_sync_service.py` lines 69-73) pins the bound relation's `to_name`
to the target's `title`, so binding rewrites `to_name` as well. -/
def resolveForwardRefs (rels : List RelationRec) (target : EntityRef) :
    List RelationRec :=
  rels.map fun r =>
    if r.toId = none ∧ (r.toName = target.permalink ∨ r.toName = target.title) then
      { r with toId := some target.id, toName := target.title }
    else r

/-! ## Sync core (`sync/sync_service.py`, with the scanner, the entity
sync service and the file service modelled from the spec where they are
not under `src/`) -/

/-- A markdown file's content, split into the `permalink:` frontmatter
key (the only part sync may rewrite) and the remaining text. -/
structure FileContent where
  fmPermalink : Option String
  body : String
deriving DecidableEq

/-- A file tree: repository-relative paths with their contents, paths
distinct. -/
abbrev FileTree := List (String × FileContent)

/-- sha256 modelled as an injective map: two contents collide exactly
when they are equal, which is all change detection relies on. -/
def computeChecksum (c : FileContent) : FileContent := c

/-- An entity row as touched by sync: path, permalink and the stored
checksum (null while a sync is in flight). -/
structure EntityRow where
  file_path : String
  permalink : String
  checksum : Option FileContent
deriving DecidableEq

/-- Strip a trailing `.md` extension. -/
def stripMdExt (l : List Char) : List Char :=
  if [Char.ofNat 46, 'm', 'd'].isSuffixOf l then l.take (l.length - 3) else l

/-- Permalink derivation (§3.1, pinned by `test_permalink_formatting`):
lowercase, replace `_` and spaces by `-`, keep `/`, strip the
extension. -/
def generatePermalink (path : String) : String :=
  ⟨(stripMdExt path.data).map
      (fun c => if c = '_' ∨ c = ' ' then '-' else c.toLower)⟩

/-- Candidate permalink of a parsed file: the frontmatter value when
present, else derived from the path. -/
def candidatePermalink (path : String) (c : FileContent) : String :=
  match c.fmPermalink with
  | some pl => pl
  | none => generatePermalink path

/-- Decimal digit character. -/
def digitChar (d : Nat) : Char := Char.ofNat (48 + d)

/-- Fuel-driven decimal representation (most significant digit first). -/
def decimalAux : Nat → Nat → List Char
  | 0, _ => []
  | fuel + 1, n =>
    if n < 10 then [digitChar n]
    else decimalAux fuel (n / 10) ++ [digitChar (n % 10)]

/-- Decimal representation of a natural number. -/
def decimalRepr (n : Nat) : List Char := decimalAux (n + 1) n

/-- The suffixed permalink `candidate-N`. -/
def numberedPermalink (base : String) (n : Nat) : String :=
  ⟨base.data ++ Char.ofNat 45 :: decimalRepr n⟩

/-- Whether some stored entity already owns a permalink. -/
def permalinkTaken (db : List EntityRow) (p : String) : Bool :=
  db.any (fun e => e.permalink = p)

/-- The suffix search of `allocate_unique_permalink` (§4.D): try
`candidate-n`, `candidate-(n+1)`, … until a free one is found.  The fuel
bounds the search; `db.length + 1` attempts always suffice because the
candidates are pairwise distinct. -/
def allocateLoop (db : List EntityRow) (base : String) :
    Nat → Nat → String
  | 0, n => numberedPermalink base n
  | fuel + 1, n =>
    if permalinkTaken db (numberedPermalink base n) then
      allocateLoop db base fuel (n + 1)
    else numberedPermalink base n

/-- Modelled from the spec: the store's `allocate_unique_permalink`
(§4.D) is not under `src/`.  Returns the candidate when free, else the
first free `candidate-N`, N = 1, 2, …. -/
def allocate_unique_permalink (db : List EntityRow) (candidate : String) :
    String :=
  if permalinkTaken db candidate then
    allocateLoop db candidate (db.length + 1) 1
  else candidate

/-- Entity lookup by file path. -/
def lookupEntity (db : List EntityRow) (path : String) : Option EntityRow :=
  db.find? (fun e => e.file_path = path)

/-- File lookup by path. -/
def lookupFile (tree : FileTree) (path : String) : Option FileContent :=
  (tree.find? (fun pc => pc.1 = path)).map (fun pc => pc.2)

/-- Change detection for one scanned file against the store: new when no
row exists for the path, modified when the stored checksum differs from
the scanned one. -/
def isChangedFile (db : List EntityRow) (pc : String × FileContent) : Bool :=
  match lookupEntity db pc.1 with
  | none => true
  | some e => e.checksum ≠ some (computeChecksum pc.2)

/-- The report returned by `SyncService.sync`.  The scanner's move
pairing (§4.B) matches a deleted with a new path of identical checksum;
this model processes such a pair as the deletion followed by the
creation, which produces the same quiescent store for the properties
verified here. -/
structure SyncReport where
  newFiles : List String
  modified : List String
  deleted : List String
deriving DecidableEq

/-- `SyncReport.total_changes`. -/
def totalChanges (r : SyncReport) : Nat :=
  r.newFiles.length + r.modified.length + r.deleted.length

/-- The evolving state of a sync cycle: the store, the on-disk tree
(sync may rewrite frontmatter), and the paths written so far. -/
structure SyncState where
  db : List EntityRow
  tree : FileTree
  writes : List String
deriving DecidableEq

/-- Create-or-update by file path. -/
def upsertRow (db : List EntityRow) (row : EntityRow) : List EntityRow :=
  if db.any (fun e => e.file_path = row.file_path) then
    db.map (fun e => if e.file_path = row.file_path then row else e)
  else db ++ [row]

/-- Record the allocated permalink in the file's frontmatter — the only
mutation of user files sync is permitted (§4.E phase 4 step 5). -/
def rewriteFrontmatter (tree : FileTree) (path pl : String) : FileTree :=
  tree.map (fun pc =>
    if pc.1 = path then (pc.1, { pc.2 with fmPermalink := some pl }) else pc)

/-- Modelled from the spec: the first-pass entity step
(`EntitySyncService.create_entity_from_markdown` /
`update_entity_and_observations` are not under `src/`).  A new file's
candidate goes through `allocate_unique_permalink`; a modified file
keeps its existing permalink when the candidate collides with another
entity (pinned by `test_sync_permalink_resolved_on_update`: `two.md`
updated to claim `permalink: one` is rewritten back to `permalink:
two`).  The row's checksum is null during the first pass (§4.E phase 4
step 3); the frontmatter is rewritten when it does not already record
the allocated permalink. -/
def syncFinalPermalink (st : SyncState) (pc : String × FileContent) : String :=
  let cand := candidatePermalink pc.1 pc.2
  match lookupEntity st.db pc.1 with
  | none => allocate_unique_permalink st.db cand
  | some row =>
    if cand = row.permalink then cand
    else if permalinkTaken (st.db.filter (fun e => e.file_path ≠ pc.1)) cand then
      row.permalink
    else cand

/-- One first-pass step, rewriting the frontmatter when it does not
already record the allocated permalink. -/
def syncEntityPass (st : SyncState) (pc : String × FileContent) : SyncState :=
  let final := syncFinalPermalink st pc
  let db2 := upsertRow st.db { file_path := pc.1, permalink := final, checksum := none }
  if pc.2.fmPermalink = some final then
    { db := db2, tree := st.tree, writes := st.writes }
  else
    { db := db2, tree := rewriteFrontmatter st.tree pc.1 final,
      writes := st.writes ++ [pc.1] }

/-- The second-pass checksum commit: as in `sync_service.py` line 69 the
committed value is `changes.checksums[file_path]`, the checksum computed
by the scan — i.e. of the file as it stood before any frontmatter
rewrite of this cycle. -/
def commitChecksums (db : List EntityRow) (changed : FileTree) :
    List EntityRow :=
  db.map (fun e =>
    match lookupFile changed e.file_path with
    | some c => { e with checksum := some (computeChecksum c) }
    | none => e)

/-- Everything `SyncService.sync` produces: the report plus the store,
the tree and the frontmatter writes it effected. -/
structure SyncOutcome where
  report : SyncReport
  db : List EntityRow
  tree : FileTree
  writes : List String
deriving DecidableEq

/-- `SyncService.sync` (`sync_service.py` lines 34-74): scan and diff,
delete rows for vanished files, then the two passes over the new and
modified files — entities first (with permalink allocation and
frontmatter rewrites), checksum commit second, where the committed
checksum is the scan-time one. -/
def sync (db : List EntityRow) (tree : FileTree) : SyncOutcome :=
  let newList := (tree.filter (fun pc => (lookupEntity db pc.1).isNone)).map
    (fun pc => pc.1)
  let modList := (tree.filter (fun pc =>
      match lookupEntity db pc.1 with
      | some e => e.checksum ≠ some (computeChecksum pc.2)
      | none => false)).map (fun pc => pc.1)
  let delList := (db.filter (fun e => (lookupFile tree e.file_path).isNone)).map
    (fun e => e.file_path)
  let db1 := db.filter (fun e => (lookupFile tree e.file_path).isSome)
  let changed := tree.filter (isChangedFile db)
  let st := changed.foldl syncEntityPass { db := db1, tree := tree, writes := [] }
  { report := { newFiles := newList, modified := modList, deleted := delList },
    db := commitChecksums st.db changed, tree := st.tree, writes := st.writes }

/-- The file paths of the stored entities. -/
def dbPaths (db : List EntityRow) : List String :=
  db.map (fun e => e.file_path)

/-- The paths of a file tree. -/
def treePaths (tree : FileTree) : List String :=
  tree.map (fun pc => pc.1)

/-- The number a decimal digit string denotes (proof support for the
injectivity of `decimalRepr`). -/
def valDigits (l : List Char) : Nat :=
  l.foldl (fun a c => 10 * a + (c.toNat - 48)) 0

/-- What the scanner reads for one path: the file's content, or the fact
that it is unreadable. -/
inductive ScanEntry
  | readable (c : FileContent)
  | unreadable
deriving DecidableEq

/-- The error surfaced for an unreadable file, naming the path. -/
structure SyncError where
  path : String
deriving DecidableEq

/-- Modelled from the spec: the file scanner (§4.A) is not under `src/`.
Walking the tree fails on the first unreadable file; no partial scan is
produced. -/
def scanTree : List (String × ScanEntry) → Except SyncError FileTree
  | [] => .ok []
  | (p, .unreadable) :: _ => .error { path := p }
  | (p, .readable c) :: rest =>
    match scanTree rest with
    | .error e => .error e
    | .ok t => .ok ((p, c) :: t)

/-- The sync cycle as driven from the scanner (`sync_service.py` line
36: the scan runs before any store mutation): a failing scan aborts the
cycle with the store exactly as it was. -/
def syncFromScan (db : List EntityRow) (raw : List (String × ScanEntry)) :
    Except SyncError SyncOutcome × List EntityRow :=
  match scanTree raw with
  | .error e => (.error e, db)
  | .ok tree => (.ok (sync db tree), (sync db tree).db)

/-! ## Theorems -/

/-- Claim C9: `EntityRepository.find_by_path_ids` applied to an empty
list returns the empty list, and `EntityRepository.delete_by_path_ids`
applied to an empty list returns 0, in both cases without issuing any
storage query and without modifying the store. -/
theorem find_and_delete_by_path_ids_empty (db : List PathEntity) :
    find_by_path_ids db [] = ([], 0) ∧ delete_by_path_ids db [] = (0, db, 0) :=
  ⟨rfl, rfl⟩

/-- Claim C7, evaluated on the code: a `build_context` call that omits
the depth argument forwards the signature default `depth = 1`, not the
depth 2 required by the claim (and asserted by the repository's own
discussion-context test). -/
theorem build_context_default_depth_is_one :
    buildContextDefaultCall.depth = some 1 ∧ buildContextDefaultCall.depth ≠ some 2 := by
  refine ⟨rfl, ?_⟩
  decide

/-- Claim C5, evaluated on the code: with two results whose adjusted
scores are their base scores 1 and 3, `_select_best_match` returns the
result with adjusted score 3 — the `reverse=True` sort puts the highest
adjusted score first, so the lowest-score result is not returned. -/
theorem select_best_match_returns_highest :
    selectBestMatch "zzz" [⟨1, "a"⟩, ⟨3, "b"⟩] = some ⟨3, "b"⟩ ∧
      adjustScore "zzz" ⟨1, "a"⟩ = 1 ∧ adjustScore "zzz" ⟨3, "b"⟩ = 3 ∧
      (1 : ℚ) < 3 := by
  refine ⟨?_, ?_, ?_, by norm_num⟩ <;> norm_num +decide [selectBestMatch, adjustScore]

/-- Claim C4 counterexample: with target `"alpha beta"` and a result
whose permalink last component `"alpha-beta"` contains both tokens, the
claim predicts the base score times `0.5^2 = 1/4`, but the code
multiplies by 0.5 only once and yields `1/2`. -/
theorem per_token_boost_counterexample :
    matchingTokenCount "alpha beta" ⟨1, "notes/alpha-beta"⟩ = 2 ∧
    adjustScore "alpha beta" ⟨1, "notes/alpha-beta"⟩ = 1 / 2 ∧
    specPredictedScore "alpha beta" ⟨1, "notes/alpha-beta"⟩ = 1 / 4 ∧
    (1 / 2 : ℚ) ≠ 1 / 4 := by
  refine ⟨by decide, ?_, ?_, by norm_num⟩
  · norm_num +decide [adjustScore]
  · have h2 : matchingTokenCount "alpha beta" ⟨1, "notes/alpha-beta"⟩ = 2 := by decide
    norm_num +decide [specPredictedScore, h2]

/-- Claim C4 as amended: the 0.5 multiplier is applied exactly once
whenever at least one token of the lowercased, whitespace-split target
occurs in the last component of the result's permalink — the adjusted
score does not depend on how many tokens match — followed by the 0.2
exact-match factor. -/
theorem half_boost_applied_once (t : String) (r : SearchResult)
    (h : 1 ≤ matchingTokenCount t r) :
    adjustScore t r =
      if (splitOnChar '/' (lowerChars r.permalink.data)).getLastD []
          = lowerChars t.data
      then r.score * (1 / 2) * (1 / 5)
      else r.score * (1 / 2) := by
  simp only [matchingTokenCount] at h
  have hex : ∃ x ∈ splitWhitespace (lowerChars t.data),
      substrContains ((splitOnChar '/' (lowerChars r.permalink.data)).getLastD [])
        x = true := by
    have hpos : 0 < (List.filter (fun tok =>
        substrContains ((splitOnChar '/' (lowerChars r.permalink.data)).getLastD [])
          tok) (splitWhitespace (lowerChars t.data))).length := h
    obtain ⟨a, ha⟩ := List.exists_mem_of_length_pos hpos
    rw [List.mem_filter] at ha
    exact ⟨a, ha.1, ha.2⟩
  have hex' := hex
  simp only [List.getLastD_eq_getLast?] at hex'
  simp [adjustScore, hex']

/-- Witness for `half_boost_applied_once` at the two-token input. -/
theorem half_boost_applied_once_witness :
    1 ≤ matchingTokenCount "alpha beta" ⟨1, "notes/alpha-beta"⟩ ∧
    adjustScore "alpha beta" ⟨1, "notes/alpha-beta"⟩ =
      (if (splitOnChar '/' (lowerChars ("notes/alpha-beta" : String).data)).getLastD []
          = lowerChars ("alpha beta" : String).data
       then (1 : ℚ) * (1 / 2) * (1 / 5)
       else (1 : ℚ) * (1 / 2)) :=
  ⟨by decide, half_boost_applied_once "alpha beta" ⟨1, "notes/alpha-beta"⟩ (by decide)⟩

/-- Claim C3 counterexample: a relation parsed as `[[target-doc]]` is
bound when an entity with permalink `target-doc` and title `Target Doc`
materializes, and its `to_name` is rewritten to `Target Doc` — it does
not remain the originally parsed string (the repository's test asserts
`to_name == target.title`). -/
theorem forward_binding_rewrites_to_name :
    resolveForwardRefs [⟨1, none, "target-doc", "depends_on"⟩]
        ⟨2, "target-doc", "Target Doc"⟩ =
      [⟨1, some 2, "Target Doc", "depends_on"⟩] ∧
    ("Target Doc" : String) ≠ "target-doc" :=
  ⟨by decide, by decide⟩

/-- Claim C3 as amended: binding a forward reference sets `to_id` to the
materialized entity's id and sets `to_name` to that entity's title (not
the originally parsed string). -/
theorem forward_binding_sets_target_title (rels : List RelationRec)
    (target : EntityRef) (r : RelationRec) (h : r ∈ rels) (h0 : r.toId = none)
    (h1 : r.toName = target.permalink ∨ r.toName = target.title) :
    { r with toId := some target.id, toName := target.title } ∈
      resolveForwardRefs rels target := by
  unfold resolveForwardRefs
  refine List.mem_map.mpr ⟨r, h, ?_⟩
  rw [if_pos ⟨h0, h1⟩]

/-- Witness for `forward_binding_sets_target_title` at the
forward-reference scenario of the spec. -/
theorem forward_binding_sets_target_title_witness :
    (⟨1, none, "target-doc", "depends_on"⟩ : RelationRec) ∈
        [(⟨1, none, "target-doc", "depends_on"⟩ : RelationRec)] ∧
      (⟨1, some 2, "Target Doc", "depends_on"⟩ : RelationRec) ∈
        resolveForwardRefs [⟨1, none, "target-doc", "depends_on"⟩]
          ⟨2, "target-doc", "Target Doc"⟩ :=
  ⟨by decide,
    forward_binding_sets_target_title [⟨1, none, "target-doc", "depends_on"⟩]
      ⟨2, "target-doc", "Target Doc"⟩ ⟨1, none, "target-doc", "depends_on"⟩
      (by decide) (by decide) (by decide)⟩

theorem contextNeighbors_not_entity (rows : List ContextRow) (n : ContextNode)
    (hn : n.1 ≠ SearchItemType.relation) :
    ∀ m ∈ contextNeighbors rows n, m.1 ≠ SearchItemType.entity := by
  obtain ⟨t, i⟩ := n
  intro m hm
  cases t with
  | entity =>
    rcases List.mem_append.mp hm with h | h
    · obtain ⟨r, _, rfl⟩ := List.mem_map.mp h
      simp
    · obtain ⟨r, _, rfl⟩ := List.mem_map.mp h
      simp
  | observation => simp [contextNeighbors] at hm
  | relation => exact absurd rfl hn

theorem nodeAdmitted_relation_false (rows : List ContextRow) (s : Int) (i : Nat)
    (hold : ∀ r ∈ rows, r.type = SearchItemType.relation → r.updatedAt < s) :
    nodeAdmitted rows (some s) (SearchItemType.relation, i) = false := by
  unfold nodeAdmitted rowFor
  cases hfind : rows.find? (fun r => r.type = SearchItemType.relation ∧ r.id = i) with
  | none => rfl
  | some r =>
    have hmem := List.mem_of_find?_eq_some hfind
    have hpred := List.find?_some hfind
    simp only [decide_eq_true_eq] at hpred
    have hlt := hold r hmem hpred.1
    simp only [decide_eq_false_iff_not]
    omega

theorem findConnectedAux_mem_of_mem (rows : List ContextRow) (since : Option Int) :
    ∀ (d : Nat) (visited frontier : List ContextNode),
      ∀ n ∈ findConnectedAux rows since d visited frontier,
        n ∈ visited ∨ nodeAdmitted rows since n = true := by
  intro d
  induction d with
  | zero =>
    intro visited frontier n hn
    exact Or.inl hn
  | succ d ih =>
    intro visited frontier n hn
    simp only [findConnectedAux] at hn
    rcases ih _ _ n hn with h | h
    · rcases List.mem_append.mp h with h2 | h2
      · exact Or.inl h2
      · have h3 := List.mem_filter.mp (List.mem_dedup.mp h2)
        right
        have := h3.2
        simp only [Bool.and_eq_true] at this
        exact this.1
    · exact Or.inr h

theorem findConnectedAux_entities_sub (rows : List ContextRow) (s : Int)
    (start : List ContextNode)
    (hold : ∀ r ∈ rows, r.type = SearchItemType.relation → r.updatedAt < s) :
    ∀ (d : Nat) (visited frontier : List ContextNode),
      (∀ n ∈ visited, n.1 = SearchItemType.entity → n ∈ start) →
      (∀ n ∈ frontier, n.1 ≠ SearchItemType.relation) →
      ∀ n ∈ findConnectedAux rows (some s) d visited frontier,
        n.1 = SearchItemType.entity → n ∈ start := by
  intro d
  induction d with
  | zero =>
    intro visited frontier hv _ n hn he
    exact hv n hn he
  | succ d ih =>
    intro visited frontier hv hf
    simp only [findConnectedAux]
    have hnext : ∀ n ∈ ((frontier.flatMap (contextNeighbors rows)).filter
        (fun n => nodeAdmitted rows (some s) n && ¬ visited.contains n)).dedup,
        n.1 ≠ SearchItemType.entity ∧ n.1 ≠ SearchItemType.relation := by
      intro n hn
      have h3 := List.mem_filter.mp (List.mem_dedup.mp hn)
      obtain ⟨src, hsrc, hnm⟩ := List.mem_flatMap.mp h3.1
      constructor
      · exact contextNeighbors_not_entity rows src (hf src hsrc) n hnm
      · intro hrel
        obtain ⟨t, i⟩ := n
        simp only at hrel
        subst hrel
        have hadm := h3.2
        simp only [Bool.and_eq_true] at hadm
        have hadm1 := hadm.1
        rw [nodeAdmitted_relation_false rows s i hold] at hadm1
        exact Bool.false_ne_true hadm1
    apply ih
    · intro n hn he
      rcases List.mem_append.mp hn with h | h
      · exact hv n h he
      · exact absurd he (hnext n h).1
    · intro n hn
      exact (hnext n hn).2

/-- Claim C8: the timeframe filter admits a node only when its
`updated_at` is at or after the `since` instant, and every node on the
traversal path from a primary must itself be admitted; consequently,
when every relation incident to the graph is older than the cutoff, no
entity beyond the primaries appears in the results, however recent the
target's own timestamp. -/
theorem timeframe_filter_blocks_old_paths (rows : List ContextRow) (s : Int)
    (d : Nat) (start : List ContextNode)
    (hstart : ∀ n ∈ start, n.1 = SearchItemType.entity)
    (hold : ∀ r ∈ rows, r.type = SearchItemType.relation → r.updatedAt < s) :
    (∀ n ∈ find_connected rows (some s) d start,
        n ∉ start → nodeAdmitted rows (some s) n = true) ∧
      ∀ n ∈ find_connected rows (some s) d start,
        n.1 = SearchItemType.entity → n ∈ start := by
  constructor
  · intro n hn hns
    rcases findConnectedAux_mem_of_mem rows (some s) d start start n hn with h | h
    · exact absurd h hns
    · exact h
  · apply findConnectedAux_entities_sub rows s start hold
    · intro n hn _
      exact hn
    · intro n hn
      rw [hstart n hn]
      simp

/-- Witness for `timeframe_filter_blocks_old_paths` on the spec's
scenario: root entity and its relation are 10 days old, the connected
entity is 1 day old, the cutoff 7 days; the recent target is excluded
because the only connecting relation is too old. -/
theorem timeframe_filter_blocks_old_paths_witness :
    (∀ n ∈ [((SearchItemType.entity : SearchItemType), (1 : Nat))],
        n.1 = SearchItemType.entity) ∧
      (∀ r ∈ [(⟨1, SearchItemType.entity, none, none, none, 0⟩ : ContextRow),
          ⟨5, SearchItemType.relation, none, some 1, some 2, 0⟩,
          ⟨2, SearchItemType.entity, none, none, none, 9⟩],
        r.type = SearchItemType.relation → r.updatedAt < 3) ∧
      (SearchItemType.entity, 2) ∉
        find_connected
          [⟨1, SearchItemType.entity, none, none, none, 0⟩,
            ⟨5, SearchItemType.relation, none, some 1, some 2, 0⟩,
            ⟨2, SearchItemType.entity, none, none, none, 9⟩]
          (some 3) 2 [(SearchItemType.entity, 1)] :=
  ⟨by decide, by decide,
    fun hmem =>
      absurd
        ((timeframe_filter_blocks_old_paths
              [⟨1, SearchItemType.entity, none, none, none, 0⟩,
                ⟨5, SearchItemType.relation, none, some 1, some 2, 0⟩,
                ⟨2, SearchItemType.entity, none, none, none, 9⟩]
              3 2 [(SearchItemType.entity, 1)] (by decide) (by decide)).2
          (SearchItemType.entity, 2) hmem rfl)
        (by decide)⟩

theorem scanTree_error_of_unreadable (raw : List (String × ScanEntry))
    (h : ∃ pe ∈ raw, pe.2 = ScanEntry.unreadable) :
    ∃ e, scanTree raw = Except.error e := by
  induction raw with
  | nil => simp at h
  | cons pe rest ih =>
    obtain ⟨p, se⟩ := pe
    cases se with
    | unreadable => exact ⟨{ path := p }, rfl⟩
    | readable c =>
      obtain ⟨x, hx, hxu⟩ := h
      rcases List.mem_cons.mp hx with rfl | hxr
      · exact absurd hxu (by simp)
      · obtain ⟨e, he⟩ := ih ⟨x, hxr, hxu⟩
        refine ⟨e, ?_⟩
        simp only [scanTree, he]

/-- Claim C6: when any file in the tree is unreadable, the sync cycle
fails with a `SyncError` and the store is returned exactly as it was —
the scan runs before any mutation (`sync_service.py` line 36), so
nothing is committed. -/
theorem unreadable_file_aborts_sync (db : List EntityRow)
    (raw : List (String × ScanEntry))
    (h : ∃ pe ∈ raw, pe.2 = ScanEntry.unreadable) :
    ∃ err, syncFromScan db raw = (Except.error err, db) := by
  obtain ⟨e, he⟩ := scanTree_error_of_unreadable raw h
  refine ⟨e, ?_⟩
  unfold syncFromScan
  rw [he]

/-- Witness for `unreadable_file_aborts_sync`: one unreadable file, a
nonempty store, and the aborted cycle leaves the store unchanged. -/
theorem unreadable_file_aborts_sync_witness :
    (∃ pe ∈ [("bad.md", ScanEntry.unreadable)], pe.2 = ScanEntry.unreadable) ∧
      ∃ err,
        syncFromScan [⟨"a.md", "a", none⟩] [("bad.md", ScanEntry.unreadable)] =
          (Except.error err, [⟨"a.md", "a", none⟩]) :=
  ⟨⟨("bad.md", ScanEntry.unreadable), by decide, rfl⟩,
    unreadable_file_aborts_sync [⟨"a.md", "a", none⟩]
      [("bad.md", ScanEntry.unreadable)]
      ⟨("bad.md", ScanEntry.unreadable), by decide, rfl⟩⟩

theorem likeMatch_star_iff (ps s : List Char) :
    likeMatch ('%' :: ps) s = true ↔ ∃ t, t <:+ s ∧ likeMatch ps t = true := by
  show (if ('%' : Char) = '%' then s.tails.any (fun s2 => likeMatch ps s2)
      else match s with
        | [] => false
        | c2 :: s2 => if ('%' : Char) = '_' then likeMatch ps s2
          else ('%' = c2 && likeMatch ps s2)) = true ↔ _
  rw [if_pos rfl, List.any_eq_true]
  constructor
  · rintro ⟨t, ht, hm⟩
    exact ⟨t, (List.mem_tails _ _).mp ht, hm⟩
  · rintro ⟨t, ht, hm⟩
    exact ⟨t, (List.mem_tails _ _).mpr ht, hm⟩

theorem likeMatch_literal_prefix_iff (lit : List Char) :
    wildcardFree lit = true →
      ∀ s, (likeMatch (lit ++ ['%']) s = true ↔ lit <+: s) := by
  induction lit with
  | nil =>
    intro _ s
    constructor
    · intro _
      exact List.nil_prefix
    · intro _
      rw [List.nil_append, likeMatch_star_iff]
      exact ⟨[], List.nil_suffix, rfl⟩
  | cons c cs ih =>
    intro hl s
    simp only [wildcardFree, List.all_cons, Bool.and_eq_true, decide_eq_true_eq] at hl
    have hc1 : ¬ (c = '%') := hl.1.1
    have hc2 : ¬ (c = '_') := hl.1.2
    have ihs := ih hl.2
    cases s with
    | nil =>
      simp only [List.cons_append, likeMatch, if_neg hc1]
      constructor
      · intro hfalse
        exact absurd hfalse (by simp)
      · intro hpre
        exact absurd (List.prefix_nil.mp hpre) (by simp)
    | cons c2 s2 =>
      simp only [List.cons_append, likeMatch, if_neg hc1, if_neg hc2,
        Bool.and_eq_true, decide_eq_true_eq, List.cons_prefix_cons, List.append_eq]
      rw [ihs s2]

theorem substrContains_iff (hay needle : List Char) :
    substrContains hay needle = true ↔ needle <:+: hay := by
  unfold substrContains
  rw [List.any_eq_true, List.infix_iff_prefix_suffix]
  constructor
  · rintro ⟨t, ht, hp⟩
    exact ⟨t, List.isPrefixOf_iff_prefix.mp hp, (List.mem_tails _ _).mp ht⟩
  · rintro ⟨t, hpt, hts⟩
    exact ⟨t, (List.mem_tails _ _).mpr hts, List.isPrefixOf_iff_prefix.mpr hpt⟩

theorem ilike_eq_substr (field q : List Char)
    (hq : wildcardFree (lowerChars q) = true) :
    ilikeContains field q = substrContains (lowerChars field) (lowerChars q) := by
  have h37 : Char.toLower '%' = '%' := by decide
  have hpat : lowerChars ('%' :: q ++ ['%']) = '%' :: (lowerChars q ++ ['%']) := by
    simp [lowerChars, h37]
  have h1 : likeMatch ('%' :: (lowerChars q ++ ['%'])) (lowerChars field) = true ↔
      lowerChars q <:+: lowerChars field := by
    rw [likeMatch_star_iff, List.infix_iff_prefix_suffix]
    constructor
    · rintro ⟨t, hts, hm⟩
      exact ⟨t, (likeMatch_literal_prefix_iff _ hq t).mp hm, hts⟩
    · rintro ⟨t, hpt, hts⟩
      exact ⟨t, hts, (likeMatch_literal_prefix_iff _ hq t).mpr hpt⟩
  have h2 := substrContains_iff (lowerChars field) (lowerChars q)
  have hbool : ∀ a b : Bool, (a = true ↔ b = true) → a = b := by decide
  apply hbool
  unfold ilikeContains
  rw [hpat]
  exact h1.trans h2.symm

/-- Claim C10 counterexample: the SQL `_` wildcard in the query string
`a_c` makes `ilike` match the entity named `abc`, which
`EntityRepository.search` therefore returns, although `a_c` occurs as a
substring of none of the four fields. -/
theorem ilike_wildcard_counterexample :
    searchEntities [⟨"abc", "note", none, []⟩] "a_c" =
        [⟨"abc", "note", none, []⟩] ∧
      entityMatchesSubstring "a_c" ⟨"abc", "note", none, []⟩ = false :=
  ⟨by decide, by decide⟩

/-- Claim C10 as amended: for query strings free of the SQL wildcards
`%` and `_`, `EntityRepository.search` returns exactly the entities for
which the query occurs case-insensitively as a substring of the name,
the entity type, the description, or some observation content. -/
theorem search_matches_substring_iff (q : String)
    (hq : wildcardFree (lowerChars q.data) = true) (db : List EntityRec)
    (e : EntityRec) :
    e ∈ searchEntities db q ↔ e ∈ db ∧ entityMatchesSubstring q e = true := by
  unfold searchEntities
  rw [List.mem_filter]
  have hm : entityMatchesQuery q e = entityMatchesSubstring q e := by
    have hrw : ∀ field : List Char,
        ilikeContains field q.data =
          substrContains (lowerChars field) (lowerChars q.data) :=
      fun field => ilike_eq_substr field q.data hq
    unfold entityMatchesQuery entityMatchesSubstring
    simp only [hrw]
  rw [hm]

/-- Witness for `search_matches_substring_iff` at a wildcard-free query
matching an entity name case-insensitively. -/
theorem search_matches_substring_iff_witness :
    wildcardFree (lowerChars ("abc" : String).data) = true ∧
      (⟨"xABCy", "note", none, []⟩ : EntityRec) ∈
        searchEntities [⟨"xABCy", "note", none, []⟩] "abc" :=
  ⟨by decide,
    (search_matches_substring_iff "abc" (by decide)
          [⟨"xABCy", "note", none, []⟩] ⟨"xABCy", "note", none, []⟩).mpr
      ⟨by decide, by decide⟩⟩

theorem digitChar_toNat (d : Nat) (h : d < 10) : (digitChar d).toNat = 48 + d := by
  interval_cases d <;> rfl

theorem valDigits_append_digit (l : List Char) (c : Char) :
    valDigits (l ++ [c]) = 10 * valDigits l + (c.toNat - 48) := by
  unfold valDigits
  rw [List.foldl_append]
  rfl

theorem valDigits_decimalAux :
    ∀ (fuel n : Nat), n ≤ fuel → valDigits (decimalAux fuel n) = n := by
  intro fuel
  induction fuel with
  | zero =>
    intro n h
    have : n = 0 := Nat.le_zero.mp h
    subst this
    rfl
  | succ fuel ih =>
    intro n h
    by_cases h10 : n < 10
    · simp only [decimalAux, if_pos h10]
      show 10 * 0 + ((digitChar n).toNat - 48) = n
      rw [digitChar_toNat n h10]
      omega
    · simp only [decimalAux, if_neg h10]
      rw [valDigits_append_digit, ih (n / 10) (by omega),
        digitChar_toNat (n % 10) (by omega)]
      omega

theorem decimalRepr_injective : Function.Injective decimalRepr := by
  intro a b hab
  have ha := valDigits_decimalAux (a + 1) a (by omega)
  have hb := valDigits_decimalAux (b + 1) b (by omega)
  unfold decimalRepr at hab
  rw [hab, hb] at ha
  omega

theorem numberedPermalink_inj (base : String) (n m : Nat)
    (h : numberedPermalink base n = numberedPermalink base m) : n = m := by
  unfold numberedPermalink at h
  have h2 : base.data ++ Char.ofNat 45 :: decimalRepr n =
      base.data ++ Char.ofNat 45 :: decimalRepr m := congrArg String.data h
  have h3 := List.append_cancel_left h2
  injection h3 with _ h4
  exact decimalRepr_injective h4

theorem exists_free_suffix (db : List EntityRow) (base : String) :
    ∃ n, 1 ≤ n ∧ n ≤ db.length + 1 ∧
      permalinkTaken db (numberedPermalink base n) = false := by
  by_contra hcon
  push_neg at hcon
  have hmap : ∀ n ∈ Finset.Icc 1 (db.length + 1),
      numberedPermalink base n ∈ (db.map (fun e => e.permalink)).toFinset := by
    intro n hn
    rw [Finset.mem_Icc] at hn
    have ht : permalinkTaken db (numberedPermalink base n) = true := by
      cases hx : permalinkTaken db (numberedPermalink base n) with
      | false => exact absurd hx (hcon n hn.1 hn.2)
      | true => rfl
    unfold permalinkTaken at ht
    rw [List.any_eq_true] at ht
    obtain ⟨e, he, hep⟩ := ht
    rw [List.mem_toFinset, List.mem_map]
    refine ⟨e, he, ?_⟩
    simpa using hep
  have hinj : Set.InjOn (fun n => numberedPermalink base n)
      (Finset.Icc 1 (db.length + 1)) :=
    fun a _ b _ hab => numberedPermalink_inj base a b hab
  have hcard := Finset.card_le_card_of_injOn _ hmap hinj
  rw [Nat.card_Icc] at hcard
  have hlen := (db.map (fun e => e.permalink)).toFinset_card_le
  rw [List.length_map] at hlen
  omega

theorem allocateLoop_finds (db : List EntityRow) (base : String) :
    ∀ (fuel start : Nat),
      (∃ n, start ≤ n ∧ n < start + fuel ∧
          permalinkTaken db (numberedPermalink base n) = false) →
      ∃ N, allocateLoop db base fuel start = numberedPermalink base N ∧
        start ≤ N ∧ permalinkTaken db (numberedPermalink base N) = false ∧
        ∀ m, start ≤ m → m < N →
          permalinkTaken db (numberedPermalink base m) = true := by
  intro fuel
  induction fuel with
  | zero =>
    intro start hex
    obtain ⟨n, h1, h2, _⟩ := hex
    omega
  | succ fuel ih =>
    intro start hex
    by_cases ht : permalinkTaken db (numberedPermalink base start) = true
    · have hex2 : ∃ n, start + 1 ≤ n ∧ n < (start + 1) + fuel ∧
          permalinkTaken db (numberedPermalink base n) = false := by
        obtain ⟨n, h1, h2, h3⟩ := hex
        have hne : n ≠ start := by
          intro heq
          rw [heq, ht] at h3
          exact absurd h3 (by simp)
        exact ⟨n, by omega, by omega, h3⟩
      obtain ⟨N, hN1, hN2, hN3, hN4⟩ := ih (start + 1) hex2
      refine ⟨N, ?_, by omega, hN3, ?_⟩
      · simp only [allocateLoop, if_pos ht]
        exact hN1
      · intro m hm1 hm2
        rcases Nat.lt_or_ge m (start + 1) with hlt | hge
        · have : m = start := by omega
          rw [this]
          exact ht
        · exact hN4 m hge hm2
    · have hf : permalinkTaken db (numberedPermalink base start) = false := by
        cases hx : permalinkTaken db (numberedPermalink base start) with
        | true => exact absurd hx ht
        | false => rfl
      refine ⟨start, ?_, le_refl _, hf, fun m hm1 hm2 => by omega⟩
      simp only [allocateLoop, if_neg ht]

theorem allocate_unique_spec (db : List EntityRow) (cand : String)
    (h : permalinkTaken db cand = true) :
    ∃ N, 1 ≤ N ∧
      allocate_unique_permalink db cand = numberedPermalink cand N ∧
      permalinkTaken db (numberedPermalink cand N) = false ∧
      ∀ m, 1 ≤ m → m < N →
        permalinkTaken db (numberedPermalink cand m) = true := by
  obtain ⟨n, h1, h2, h3⟩ := exists_free_suffix db cand
  obtain ⟨N, hN1, hN2, hN3, hN4⟩ :=
    allocateLoop_finds db cand (db.length + 1) 1 ⟨n, h1, by omega, h3⟩
  refine ⟨N, hN2, ?_, hN3, hN4⟩
  unfold allocate_unique_permalink
  rw [if_pos h]
  exact hN1

theorem allocate_unique_fresh (db : List EntityRow) (cand : String) :
    permalinkTaken db (allocate_unique_permalink db cand) = false := by
  by_cases h : permalinkTaken db cand = true
  · obtain ⟨N, _, hEq, hFree, _⟩ := allocate_unique_spec db cand h
    rw [hEq]
    exact hFree
  · unfold allocate_unique_permalink
    rw [if_neg h]
    cases hx : permalinkTaken db cand with
    | true => exact absurd hx h
    | false => rfl

theorem lookupEntity_eq_none_iff (db : List EntityRow) (p : String) :
    lookupEntity db p = none ↔ ∀ e ∈ db, e.file_path ≠ p := by
  unfold lookupEntity
  rw [List.find?_eq_none]
  simp

theorem lookupEntity_isSome_iff (db : List EntityRow) (p : String) :
    (lookupEntity db p).isSome = true ↔ ∃ e ∈ db, e.file_path = p := by
  unfold lookupEntity
  rw [List.find?_isSome]
  simp

theorem lookupEntity_mem (db : List EntityRow) (p : String) (e : EntityRow)
    (h : lookupEntity db p = some e) : e ∈ db ∧ e.file_path = p := by
  unfold lookupEntity at h
  refine ⟨List.mem_of_find?_eq_some h, ?_⟩
  simpa using List.find?_some h

theorem mem_eq_of_nodup_paths (db : List EntityRow) (a b : EntityRow)
    (hnd : (dbPaths db).Nodup) (ha : a ∈ db) (hb : b ∈ db)
    (hp : a.file_path = b.file_path) : a = b :=
  List.inj_on_of_nodup_map hnd ha hb hp

theorem lookupEntity_of_nodup (db : List EntityRow) (e : EntityRow)
    (hnd : (dbPaths db).Nodup) (he : e ∈ db) :
    lookupEntity db e.file_path = some e := by
  induction db with
  | nil => cases he
  | cons x xs ih =>
    unfold dbPaths at hnd
    rw [List.map_cons, List.nodup_cons] at hnd
    rcases List.mem_cons.mp he with rfl | hx
    · unfold lookupEntity
      rw [List.find?_cons_of_pos _ (by simp)]
    · have hne : ¬ (x.file_path = e.file_path) := fun heq =>
        hnd.1 (heq ▸ List.mem_map_of_mem (fun r => r.file_path) hx)
      unfold lookupEntity
      rw [List.find?_cons_of_neg _ (by simpa using hne)]
      exact ih hnd.2 hx

theorem lookupFile_eq_none_iff (tree : FileTree) (p : String) :
    lookupFile tree p = none ↔ ∀ pc ∈ tree, pc.1 ≠ p := by
  unfold lookupFile
  rw [Option.map_eq_none', List.find?_eq_none]
  simp

theorem lookupFile_isSome_iff (tree : FileTree) (p : String) :
    (lookupFile tree p).isSome = true ↔ ∃ pc ∈ tree, pc.1 = p := by
  unfold lookupFile
  rw [Option.isSome_map', List.find?_isSome]
  simp

theorem lookupFile_of_nodup (tree : FileTree) (pc : String × FileContent)
    (hnd : (treePaths tree).Nodup) (hm : pc ∈ tree) :
    lookupFile tree pc.1 = some pc.2 := by
  induction tree with
  | nil => cases hm
  | cons x xs ih =>
    unfold treePaths at hnd
    rw [List.map_cons, List.nodup_cons] at hnd
    rcases List.mem_cons.mp hm with rfl | hx
    · unfold lookupFile
      rw [List.find?_cons_of_pos _ (by simp)]
      rfl
    · have hne : ¬ (x.1 = pc.1) := fun heq =>
        hnd.1 (heq ▸ List.mem_map_of_mem (fun r => r.1) hx)
      unfold lookupFile
      rw [List.find?_cons_of_neg _ (by simpa using hne)]
      exact ih hnd.2 hx

theorem lookup_replace_other (db : List EntityRow) (row : EntityRow) (p : String)
    (hne : p ≠ row.file_path) :
    lookupEntity
        (db.map (fun e => if e.file_path = row.file_path then row else e)) p =
      lookupEntity db p := by
  induction db with
  | nil => rfl
  | cons x xs ih =>
    rw [List.map_cons]
    by_cases hx : x.file_path = row.file_path
    · rw [if_pos hx]
      unfold lookupEntity
      rw [List.find?_cons_of_neg _ (by simp [Ne.symm hne]),
        List.find?_cons_of_neg _ (by simp [hx, Ne.symm hne])]
      exact ih
    · rw [if_neg hx]
      by_cases hxp : x.file_path = p
      · unfold lookupEntity
        rw [List.find?_cons_of_pos _ (by simpa using hxp),
          List.find?_cons_of_pos _ (by simpa using hxp)]
      · unfold lookupEntity
        rw [List.find?_cons_of_neg _ (by simpa using hxp),
          List.find?_cons_of_neg _ (by simpa using hxp)]
        exact ih

theorem lookup_replace_self (db : List EntityRow) (row : EntityRow)
    (hany : db.any (fun e => e.file_path = row.file_path) = true) :
    lookupEntity
        (db.map (fun e => if e.file_path = row.file_path then row else e))
        row.file_path = some row := by
  induction db with
  | nil => simp at hany
  | cons x xs ih =>
    rw [List.map_cons]
    by_cases hx : x.file_path = row.file_path
    · rw [if_pos hx]
      unfold lookupEntity
      rw [List.find?_cons_of_pos _ (by exact decide_eq_true rfl)]
    · rw [if_neg hx]
      rw [List.any_cons] at hany
      have hany2 : xs.any (fun e => e.file_path = row.file_path) = true := by
        simp only [Bool.or_eq_true, decide_eq_true_eq] at hany
        rcases hany with h | h
        · exact absurd h hx
        · exact h
      unfold lookupEntity
      rw [List.find?_cons_of_neg _ (by simpa using hx)]
      exact ih hany2

theorem upsertRow_lookup_other (db : List EntityRow) (row : EntityRow)
    (p : String) (hne : p ≠ row.file_path) :
    lookupEntity (upsertRow db row) p = lookupEntity db p := by
  unfold upsertRow
  split
  · exact lookup_replace_other db row p hne
  · unfold lookupEntity
    rw [List.find?_append]
    cases hf : List.find? (fun e => e.file_path = p) db with
    | some e => rfl
    | none =>
      simp only [Option.none_or]
      rw [List.find?_cons_of_neg _ (by simpa using Ne.symm hne)]
      rfl

theorem upsertRow_lookup_self (db : List EntityRow) (row : EntityRow) :
    lookupEntity (upsertRow db row) row.file_path = some row := by
  unfold upsertRow
  split
  · exact lookup_replace_self db row (by assumption)
  · rename_i hany
    unfold lookupEntity
    rw [List.find?_append]
    have hnone : List.find? (fun e => e.file_path = row.file_path) db = none := by
      rw [List.find?_eq_none]
      intro e he
      have : ¬ (db.any (fun e => e.file_path = row.file_path) = true) := hany
      rw [List.any_eq_true] at this
      push_neg at this
      simpa using this e he
    rw [hnone]
    simp only [Option.none_or]
    rw [List.find?_cons_of_pos _ (by simp)]

theorem upsertRow_mem (db : List EntityRow) (row e : EntityRow)
    (he : e ∈ upsertRow db row) : e ∈ db ∨ e = row := by
  unfold upsertRow at he
  split at he
  · obtain ⟨x, hx, hxe⟩ := List.mem_map.mp he
    by_cases h : x.file_path = row.file_path
    · rw [if_pos h] at hxe
      exact Or.inr hxe.symm
    · rw [if_neg h] at hxe
      exact Or.inl (hxe ▸ hx)
  · rcases List.mem_append.mp he with h | h
    · exact Or.inl h
    · exact Or.inr (List.mem_singleton.mp h)

theorem syncEntityPass_db (st : SyncState) (pc : String × FileContent) :
    (syncEntityPass st pc).db =
      upsertRow st.db
        { file_path := pc.1, permalink := syncFinalPermalink st pc,
          checksum := none } := by
  simp only [syncEntityPass]
  split <;> rfl

theorem syncEntityPass_writes (st : SyncState) (pc : String × FileContent) :
    (syncEntityPass st pc).writes = st.writes ∨
      (syncEntityPass st pc).writes = st.writes ++ [pc.1] := by
  simp only [syncEntityPass]
  split
  · exact Or.inl rfl
  · exact Or.inr rfl

theorem syncEntityPass_tree_of_writes_eq (st : SyncState)
    (pc : String × FileContent)
    (h : (syncEntityPass st pc).writes = st.writes) :
    (syncEntityPass st pc).tree = st.tree := by
  simp only [syncEntityPass] at h ⊢
  split at h
  · rename_i hc
    rw [if_pos hc]
  · exfalso
    simp at h

theorem syncEntityPass_writes_grow (st : SyncState)
    (pc : String × FileContent) :
    st.writes <+: (syncEntityPass st pc).writes := by
  rcases syncEntityPass_writes st pc with h | h
  · rw [h]
  · rw [h]
    exact List.prefix_append _ _

theorem foldl_pass_writes_grow :
    ∀ (l : List (String × FileContent)) (st : SyncState),
      st.writes <+: (l.foldl syncEntityPass st).writes := by
  intro l
  induction l with
  | nil => intro st; exact List.prefix_refl _
  | cons pc rest ih =>
    intro st
    exact (syncEntityPass_writes_grow st pc).trans (ih (syncEntityPass st pc))

theorem foldl_pass_tree_of_writes_eq :
    ∀ (l : List (String × FileContent)) (st : SyncState),
      (l.foldl syncEntityPass st).writes = st.writes →
        (l.foldl syncEntityPass st).tree = st.tree := by
  intro l
  induction l with
  | nil => intro st _; rfl
  | cons pc rest ih =>
    intro st h
    rw [List.foldl_cons] at h ⊢
    have hpre1 := syncEntityPass_writes_grow st pc
    have hpre2 := foldl_pass_writes_grow rest (syncEntityPass st pc)
    have heq : (syncEntityPass st pc).writes = st.writes := by
      have hlen1 := hpre1.length_le
      have hlen2 := hpre2.length_le
      rw [h] at hlen2
      exact (hpre1.eq_of_length (by omega)).symm
    rw [ih (syncEntityPass st pc) (h.trans heq.symm),
      syncEntityPass_tree_of_writes_eq st pc heq]

theorem foldl_pass_lookup_unprocessed :
    ∀ (l : List (String × FileContent)) (st : SyncState) (p : String),
      p ∉ l.map (fun pc => pc.1) →
        lookupEntity (l.foldl syncEntityPass st).db p = lookupEntity st.db p := by
  intro l
  induction l with
  | nil => intro st p _; rfl
  | cons pc rest ih =>
    intro st p hp
    rw [List.map_cons, List.mem_cons] at hp
    push_neg at hp
    rw [List.foldl_cons, ih (syncEntityPass st pc) p hp.2, syncEntityPass_db]
    exact upsertRow_lookup_other st.db _ p hp.1

theorem upsertRow_lookup_isSome (db : List EntityRow) (row : EntityRow)
    (p : String) (h : (lookupEntity db p).isSome = true) :
    (lookupEntity (upsertRow db row) p).isSome = true := by
  by_cases hp : p = row.file_path
  · rw [hp, upsertRow_lookup_self]
    rfl
  · rw [upsertRow_lookup_other db row p hp]
    exact h

theorem foldl_pass_lookup_isSome :
    ∀ (l : List (String × FileContent)) (st : SyncState) (p : String),
      (lookupEntity st.db p).isSome = true →
        (lookupEntity (l.foldl syncEntityPass st).db p).isSome = true := by
  intro l
  induction l with
  | nil => intro st p h; exact h
  | cons pc rest ih =>
    intro st p h
    rw [List.foldl_cons]
    refine ih (syncEntityPass st pc) p ?_
    rw [syncEntityPass_db]
    exact upsertRow_lookup_isSome st.db _ p h

theorem foldl_pass_processed_isSome :
    ∀ (l : List (String × FileContent)) (st : SyncState)
      (pc : String × FileContent), pc ∈ l →
      (lookupEntity (l.foldl syncEntityPass st).db pc.1).isSome = true := by
  intro l
  induction l with
  | nil => intro st pc h; cases h
  | cons x rest ih =>
    intro st pc hpc
    rw [List.foldl_cons]
    rcases List.mem_cons.mp hpc with rfl | hx
    · refine foldl_pass_lookup_isSome rest (syncEntityPass st pc) pc.1 ?_
      rw [syncEntityPass_db]
      have := upsertRow_lookup_self st.db
        { file_path := pc.1, permalink := syncFinalPermalink st pc,
          checksum := none }
      rw [this]
      rfl
    · exact ih (syncEntityPass st x) pc hx

theorem foldl_pass_db_paths (P : String → Prop) :
    ∀ (l : List (String × FileContent)) (st : SyncState),
      (∀ e ∈ st.db, P e.file_path) → (∀ pc ∈ l, P pc.1) →
        ∀ e ∈ (l.foldl syncEntityPass st).db, P e.file_path := by
  intro l
  induction l with
  | nil => intro st hdb _ e he; exact hdb e he
  | cons pc rest ih =>
    intro st hdb hl e he
    rw [List.foldl_cons] at he
    refine ih (syncEntityPass st pc) ?_ (fun x hx => hl x (List.mem_cons_of_mem pc hx)) e he
    intro x hx
    rw [syncEntityPass_db] at hx
    rcases upsertRow_mem st.db _ x hx with h | h
    · exact hdb x h
    · rw [h]
      exact hl pc (List.mem_cons_self pc rest)

theorem lookupEntity_map_path_preserving (db : List EntityRow)
    (g : EntityRow → EntityRow) (p : String)
    (hg : ∀ e, (g e).file_path = e.file_path) :
    lookupEntity (db.map g) p = (lookupEntity db p).map g := by
  induction db with
  | nil => rfl
  | cons x xs ih =>
    rw [List.map_cons]
    by_cases hx : x.file_path = p
    · unfold lookupEntity
      rw [List.find?_cons_of_pos _ (by simp [hg, hx]),
        List.find?_cons_of_pos _ (by simp [hx])]
      rfl
    · unfold lookupEntity
      rw [List.find?_cons_of_neg _ (by simp [hg, hx]),
        List.find?_cons_of_neg _ (by simp [hx])]
      exact ih

theorem commitChecksums_lookup (db : List EntityRow) (changed : FileTree)
    (p : String) :
    lookupEntity (commitChecksums db changed) p =
      (lookupEntity db p).map (fun e =>
        match lookupFile changed e.file_path with
        | some c => { e with checksum := some (computeChecksum c) }
        | none => e) := by
  unfold commitChecksums
  exact lookupEntity_map_path_preserving db _ p
    (fun e => by cases lookupFile changed e.file_path <;> rfl)

theorem isChangedFile_false_iff (db : List EntityRow)
    (pc : String × FileContent) :
    isChangedFile db pc = false ↔
      ∃ e, lookupEntity db pc.1 = some e ∧
        e.checksum = some (computeChecksum pc.2) := by
  unfold isChangedFile
  cases h : lookupEntity db pc.1 with
  | none => simp
  | some e => simp

theorem sync_second_ready (db : List EntityRow) (tree : FileTree)
    (hdb : (dbPaths db).Nodup) (htree : (treePaths tree).Nodup)
    (hw : (sync db tree).writes = []) :
    (sync db tree).tree = tree ∧
      (∀ pc ∈ tree, ∃ e, lookupEntity (sync db tree).db pc.1 = some e ∧
        e.checksum = some (computeChecksum pc.2)) ∧
      ∀ e ∈ (sync db tree).db, (lookupFile tree e.file_path).isSome = true := by
  have hwrites : ((tree.filter (isChangedFile db)).foldl syncEntityPass
      { db := db.filter (fun e => (lookupFile tree e.file_path).isSome),
        tree := tree, writes := [] }).writes = [] := hw
  have htr : (sync db tree).tree = tree :=
    foldl_pass_tree_of_writes_eq (tree.filter (isChangedFile db))
      { db := db.filter (fun e => (lookupFile tree e.file_path).isSome),
        tree := tree, writes := [] } hwrites
  have hdbeq : (sync db tree).db =
      commitChecksums
        ((tree.filter (isChangedFile db)).foldl syncEntityPass
          { db := db.filter (fun e => (lookupFile tree e.file_path).isSome),
            tree := tree, writes := [] }).db
        (tree.filter (isChangedFile db)) := rfl
  refine ⟨htr, ?_, ?_⟩
  · intro pc hpc
    by_cases hch : isChangedFile db pc = true
    · have hpcch : pc ∈ tree.filter (isChangedFile db) :=
        List.mem_filter.mpr ⟨hpc, hch⟩
      have hsome := foldl_pass_processed_isSome (tree.filter (isChangedFile db))
        { db := db.filter (fun e => (lookupFile tree e.file_path).isSome),
          tree := tree, writes := [] } pc hpcch
      obtain ⟨r, hr⟩ := Option.isSome_iff_exists.mp hsome
      have hrp : r.file_path = pc.1 := (lookupEntity_mem _ _ _ hr).2
      have hchn : (treePaths (tree.filter (isChangedFile db))).Nodup :=
        htree.sublist ((List.filter_sublist tree).map _)
      have hfile : lookupFile (tree.filter (isChangedFile db)) pc.1 = some pc.2 :=
        lookupFile_of_nodup _ pc hchn hpcch
      refine ⟨{ r with checksum := some (computeChecksum pc.2) }, ?_, rfl⟩
      rw [hdbeq, commitChecksums_lookup, hr]
      simp only [Option.map_some']
      rw [hrp, hfile]
    · have hch2 : isChangedFile db pc = false := by
        cases h : isChangedFile db pc with
        | true => exact absurd h hch
        | false => rfl
      obtain ⟨e, he, hck⟩ := (isChangedFile_false_iff db pc).mp hch2
      have hemem := lookupEntity_mem db pc.1 e he
      have hfs : (lookupFile tree e.file_path).isSome = true := by
        rw [lookupFile_isSome_iff]
        exact ⟨pc, hpc, hemem.2.symm⟩
      have hedb1 : e ∈ db.filter (fun e => (lookupFile tree e.file_path).isSome) :=
        List.mem_filter.mpr ⟨hemem.1, hfs⟩
      have hnd1 : (dbPaths
          (db.filter (fun e => (lookupFile tree e.file_path).isSome))).Nodup :=
        hdb.sublist ((List.filter_sublist db).map _)
      have hlk1 : lookupEntity
          (db.filter (fun e => (lookupFile tree e.file_path).isSome)) pc.1 =
          some e := by
        have h2 := lookupEntity_of_nodup _ e hnd1 hedb1
        rw [hemem.2] at h2
        exact h2
      have hnotin : pc.1 ∉ (tree.filter (isChangedFile db)).map (fun pc => pc.1) := by
        intro hin
        obtain ⟨qc, hqc, hqp⟩ := List.mem_map.mp hin
        have hqtree := (List.mem_filter.mp hqc).1
        have hqe : qc = pc := List.inj_on_of_nodup_map htree hqtree hpc hqp
        rw [hqe] at hqc
        have hqch := (List.mem_filter.mp hqc).2
        rw [hch2] at hqch
        exact Bool.false_ne_true hqch
      have hlkst := foldl_pass_lookup_unprocessed (tree.filter (isChangedFile db))
        { db := db.filter (fun e => (lookupFile tree e.file_path).isSome),
          tree := tree, writes := [] } pc.1 hnotin
      have hfchanged : lookupFile (tree.filter (isChangedFile db)) pc.1 = none := by
        rw [lookupFile_eq_none_iff]
        intro qc hqc heq
        exact hnotin (List.mem_map.mpr ⟨qc, hqc, heq⟩)
      refine ⟨e, ?_, hck⟩
      rw [hdbeq, commitChecksums_lookup, hlkst, hlk1]
      simp only [Option.map_some']
      rw [hemem.2, hfchanged]
  · intro e he
    rw [hdbeq] at he
    unfold commitChecksums at he
    obtain ⟨x, hx, hxe⟩ := List.mem_map.mp he
    have hgp : e.file_path = x.file_path := by
      rw [← hxe]
      cases lookupFile (tree.filter (isChangedFile db)) x.file_path <;> rfl
    rw [hgp]
    refine foldl_pass_db_paths (fun p => (lookupFile tree p).isSome = true)
      (tree.filter (isChangedFile db))
      { db := db.filter (fun e => (lookupFile tree e.file_path).isSome),
        tree := tree, writes := [] } ?_ ?_ x hx
    · intro y hy
      exact (List.mem_filter.mp hy).2
    · intro qc hqc
      rw [lookupFile_isSome_iff]
      exact ⟨qc, (List.mem_filter.mp hqc).1, rfl⟩

/-- Claim C1 counterexample: syncing a tree holding one markdown file
without a `permalink:` frontmatter key rewrites the file (to record the
allocated permalink) but commits the scan-time checksum, so the second
run reports the file as modified — one change, not zero. -/
theorem second_sync_sees_rewritten_file :
    (sync ([] : List EntityRow) [("note.md", ⟨none, "x"⟩)]).writes =
        ["note.md"] ∧
      totalChanges
        (sync (sync ([] : List EntityRow) [("note.md", ⟨none, "x"⟩)]).db
            (sync ([] : List EntityRow) [("note.md", ⟨none, "x"⟩)]).tree).report
        = 1 ∧
      (1 : Nat) ≠ 0 :=
  ⟨by decide, by decide, by decide⟩

/-- Claim C1 as amended: sync is idempotent for trees whose markdown
files already record their allocated permalinks — whenever the first run
performs no frontmatter rewrite, the second run reports zero changes and
performs no disk write.  (When the first run does rewrite frontmatter,
the rewritten files are re-reported as modified on the second run,
because the committed checksum is the scan-time one.) -/
theorem sync_idempotent_when_no_rewrites (db : List EntityRow)
    (tree : FileTree) (hdb : (dbPaths db).Nodup)
    (htree : (treePaths tree).Nodup) (hw : (sync db tree).writes = []) :
    totalChanges (sync (sync db tree).db (sync db tree).tree).report = 0 ∧
      (sync (sync db tree).db (sync db tree).tree).writes = [] := by
  obtain ⟨htr, hlk, hpaths⟩ := sync_second_ready db tree hdb htree hw
  rw [htr]
  revert hlk hpaths
  generalize (sync db tree).db = outDb
  intro hlk hpaths
  have hnew : tree.filter (fun pc => (lookupEntity outDb pc.1).isNone) = [] := by
    rw [List.filter_eq_nil_iff]
    intro pc hpc
    obtain ⟨e, he, _⟩ := hlk pc hpc
    simp [he]
  have hmod : tree.filter (fun pc =>
      match lookupEntity outDb pc.1 with
      | some e => e.checksum ≠ some (computeChecksum pc.2)
      | none => false) = [] := by
    rw [List.filter_eq_nil_iff]
    intro pc hpc
    obtain ⟨e, he, hck⟩ := hlk pc hpc
    simp [he, hck]
  have hchanged : tree.filter (isChangedFile outDb) = [] := by
    rw [List.filter_eq_nil_iff]
    intro pc hpc
    obtain ⟨e, he, hck⟩ := hlk pc hpc
    unfold isChangedFile
    simp [he, hck]
  have hdel : outDb.filter
      (fun e => (lookupFile tree e.file_path).isNone) = [] := by
    rw [List.filter_eq_nil_iff]
    intro e he
    have hs := hpaths e he
    cases h : lookupFile tree e.file_path with
    | none =>
      rw [h] at hs
      simp at hs
    | some c => simp
  constructor
  · show totalChanges (sync outDb tree).report = 0
    simp only [sync, totalChanges]
    rw [hnew, hmod, hdel]
    simp
  · show (sync outDb tree).writes = []
    simp only [sync]
    rw [hchanged]
    rfl

/-- Witness for `sync_idempotent_when_no_rewrites` on a one-file tree
whose frontmatter already carries the allocated permalink. -/
theorem sync_idempotent_when_no_rewrites_witness :
    (dbPaths ([] : List EntityRow)).Nodup ∧
      (treePaths [("note.md", (⟨some "note", "x"⟩ : FileContent))]).Nodup ∧
      (sync ([] : List EntityRow)
          [("note.md", ⟨some "note", "x"⟩)]).writes = [] ∧
      totalChanges
        (sync
          (sync ([] : List EntityRow) [("note.md", ⟨some "note", "x"⟩)]).db
          (sync ([] : List EntityRow)
            [("note.md", ⟨some "note", "x"⟩)]).tree).report = 0 ∧
      (sync (sync ([] : List EntityRow) [("note.md", ⟨some "note", "x"⟩)]).db
        (sync ([] : List EntityRow)
          [("note.md", ⟨some "note", "x"⟩)]).tree).writes = [] :=
  ⟨by decide, by decide, by decide,
    (sync_idempotent_when_no_rewrites [] [("note.md", ⟨some "note", "x"⟩)]
        (by decide) (by decide) (by decide)).1,
    (sync_idempotent_when_no_rewrites [] [("note.md", ⟨some "note", "x"⟩)]
        (by decide) (by decide) (by decide)).2⟩

theorem permalink_ne_of_nodup (db : List EntityRow) (a b : EntityRow)
    (h2 : (db.map (fun e => e.permalink)).Nodup) (ha : a ∈ db) (hb : b ∈ db)
    (hne : a ≠ b) : a.permalink ≠ b.permalink :=
  fun heq => hne (List.inj_on_of_nodup_map h2 ha hb heq)

theorem syncEntityPass_nodup (st : SyncState) (pc : String × FileContent)
    (h1 : (dbPaths st.db).Nodup)
    (h2 : (st.db.map (fun e => e.permalink)).Nodup) :
    (dbPaths (syncEntityPass st pc).db).Nodup ∧
      ((syncEntityPass st pc).db.map (fun e => e.permalink)).Nodup := by
  rw [syncEntityPass_db]
  cases hl : lookupEntity st.db pc.1 with
  | none =>
    have hnone : ∀ e ∈ st.db, e.file_path ≠ pc.1 :=
      (lookupEntity_eq_none_iff _ _).mp hl
    have hany : ¬ (st.db.any (fun e => e.file_path = pc.1) = true) := by
      rw [List.any_eq_true]
      push_neg
      intro e he
      simp [hnone e he]
    have hfresh : ∀ e ∈ st.db, e.permalink ≠ syncFinalPermalink st pc := by
      have hfin : syncFinalPermalink st pc =
          allocate_unique_permalink st.db (candidatePermalink pc.1 pc.2) := by
        simp only [syncFinalPermalink, hl]
      have hfr := allocate_unique_fresh st.db (candidatePermalink pc.1 pc.2)
      unfold permalinkTaken at hfr
      rw [List.any_eq_false] at hfr
      intro e he
      rw [hfin]
      simpa using hfr e he
    unfold upsertRow
    rw [if_neg hany]
    constructor
    · unfold dbPaths
      rw [List.map_append, List.nodup_append]
      refine ⟨h1, by simp, ?_⟩
      intro p hp hq
      obtain ⟨e, he, rfl⟩ := List.mem_map.mp hp
      rw [List.map_singleton, List.mem_singleton] at hq
      exact hnone e he hq
    · rw [List.map_append, List.nodup_append]
      refine ⟨h2, by simp, ?_⟩
      intro p hp hq
      obtain ⟨e, he, rfl⟩ := List.mem_map.mp hp
      rw [List.map_singleton, List.mem_singleton] at hq
      exact hfresh e he hq
  | some row0 =>
    have hmem0 := lookupEntity_mem st.db pc.1 row0 hl
    have hany : st.db.any (fun e => e.file_path = pc.1) = true :=
      List.any_eq_true.mpr ⟨row0, hmem0.1, by simp [hmem0.2]⟩
    have hkey : ∀ b ∈ st.db, b.file_path ≠ pc.1 →
        b.permalink ≠ syncFinalPermalink st pc := by
      intro b hb hbp
      have hbne : b ≠ row0 := fun heq => hbp (by rw [heq, hmem0.2])
      simp only [syncFinalPermalink, hl]
      by_cases hc1 : candidatePermalink pc.1 pc.2 = row0.permalink
      · rw [if_pos hc1, hc1]
        exact permalink_ne_of_nodup st.db b row0 h2 hb hmem0.1 hbne
      · rw [if_neg hc1]
        by_cases hc2 : permalinkTaken
            (st.db.filter (fun e => e.file_path ≠ pc.1))
            (candidatePermalink pc.1 pc.2) = true
        · rw [if_pos hc2]
          exact permalink_ne_of_nodup st.db b row0 h2 hb hmem0.1 hbne
        · rw [if_neg hc2]
          intro heq
          apply hc2
          unfold permalinkTaken
          rw [List.any_eq_true]
          exact ⟨b, List.mem_filter.mpr ⟨hb, by simpa using hbp⟩, by simp [heq]⟩
    unfold upsertRow
    rw [if_pos hany]
    constructor
    · unfold dbPaths
      rw [List.map_map]
      have hfun : ((fun e : EntityRow => e.file_path) ∘
          (fun e => if e.file_path = pc.1 then
            { file_path := pc.1, permalink := syncFinalPermalink st pc,
              checksum := none }
          else e)) = fun e : EntityRow => e.file_path := by
        funext e
        by_cases h : e.file_path = pc.1
        · simp [Function.comp, if_pos h, h]
        · simp [Function.comp, if_neg h]
      rw [hfun]
      exact h1
    · rw [List.map_map]
      have hpair1 : st.db.Pairwise (fun a b => a.file_path ≠ b.file_path) := by
        have h1b := h1
        unfold dbPaths at h1b
        exact List.pairwise_map.mp h1b
      have hpair2 : st.db.Pairwise (fun a b => a.permalink ≠ b.permalink) :=
        List.pairwise_map.mp h2
      have hcomb := hpair1.and hpair2
      refine List.pairwise_map.mpr (List.Pairwise.imp_of_mem ?_ hcomb)
      intro a b ha hb hab
      obtain ⟨hpath, hperm⟩ := hab
      show (if a.file_path = pc.1 then
          { file_path := pc.1, permalink := syncFinalPermalink st pc,
            checksum := none } else a).permalink ≠
        (if b.file_path = pc.1 then
          { file_path := pc.1, permalink := syncFinalPermalink st pc,
            checksum := none } else b).permalink
      by_cases haa : a.file_path = pc.1 <;> by_cases hbb : b.file_path = pc.1
      · exact absurd (haa.trans hbb.symm) hpath
      · rw [if_pos haa, if_neg hbb]
        exact (hkey b hb hbb).symm
      · rw [if_neg haa, if_pos hbb]
        exact hkey a ha haa
      · rw [if_neg haa, if_neg hbb]
        exact hperm

theorem foldl_pass_nodup :
    ∀ (l : List (String × FileContent)) (st : SyncState),
      (dbPaths st.db).Nodup → (st.db.map (fun e => e.permalink)).Nodup →
        (dbPaths (l.foldl syncEntityPass st).db).Nodup ∧
          ((l.foldl syncEntityPass st).db.map (fun e => e.permalink)).Nodup := by
  intro l
  induction l with
  | nil => intro st h1 h2; exact ⟨h1, h2⟩
  | cons pc rest ih =>
    intro st h1 h2
    rw [List.foldl_cons]
    obtain ⟨h1b, h2b⟩ := syncEntityPass_nodup st pc h1 h2
    exact ih (syncEntityPass st pc) h1b h2b

theorem commitChecksums_permalinks_nodup (db : List EntityRow)
    (changed : FileTree) (h2 : (db.map (fun e => e.permalink)).Nodup) :
    ((commitChecksums db changed).map (fun e => e.permalink)).Nodup := by
  unfold commitChecksums
  rw [List.map_map]
  have hfun : ((fun e : EntityRow => e.permalink) ∘ (fun e =>
      match lookupFile changed e.file_path with
      | some c => { e with checksum := some (computeChecksum c) }
      | none => e)) = fun e : EntityRow => e.permalink := by
    funext e
    simp only [Function.comp_apply]
    cases h : lookupFile changed e.file_path with
    | none => rfl
    | some c => rfl
  rw [hfun]
  exact h2

/-- Claim C2 counterexample: with entities `one` (permalink `one`) and
`two` (permalink `two`), updating `two.md` to claim `permalink: one`
(which collides with `one.md`) does not yield the suffixed `one-1` the
claim prescribes — the entity keeps its existing permalink `two`, and
the file's frontmatter is rewritten back to it (as the repository's
`test_sync_permalink_resolved_on_update` asserts). -/
theorem update_conflict_keeps_existing_permalink :
    lookupEntity
        (sync
          [⟨"one.md", "one", some ⟨some "one", "b1"⟩⟩,
            ⟨"two.md", "two", some ⟨some "two", "b2"⟩⟩]
          [("one.md", ⟨some "one", "b1"⟩),
            ("two.md", ⟨some "one", "b2x"⟩)]).db "two.md" =
      some ⟨"two.md", "two", some ⟨some "one", "b2x"⟩⟩ ∧
    candidatePermalink "two.md" (⟨some "one", "b2x"⟩ : FileContent) = "one" ∧
    permalinkTaken
      [⟨"one.md", "one", some ⟨some "one", "b1"⟩⟩,
        ⟨"two.md", "two", some ⟨some "two", "b2"⟩⟩] "one" = true ∧
    ("two" : String) ≠ numberedPermalink "one" 1 ∧
    lookupFile
      (sync
        [⟨"one.md", "one", some ⟨some "one", "b1"⟩⟩,
          ⟨"two.md", "two", some ⟨some "two", "b2"⟩⟩]
        [("one.md", ⟨some "one", "b1"⟩),
          ("two.md", ⟨some "one", "b2x"⟩)]).tree "two.md" =
      some ⟨some "two", "b2x"⟩ :=
  ⟨by decide, by decide, by decide, by decide, by decide⟩

/-- Claim C2 as amended: permalink uniqueness is an invariant of sync —
if no two stored entities share a permalink before a sync (and paths are
unique), none share one after it; and for a **new** entity whose
candidate permalink is taken, `allocate_unique_permalink` returns
`candidate-N` for the smallest N ≥ 1 that is free.  (For a **modified**
entity whose candidate collides with another entity, the existing
permalink is kept instead — no suffix is allocated.) -/
theorem sync_permalinks_unique (db : List EntityRow) (tree : FileTree)
    (hdb1 : (dbPaths db).Nodup)
    (hdb2 : (db.map (fun e => e.permalink)).Nodup) :
    ((sync db tree).db.map (fun e => e.permalink)).Nodup ∧
      ∀ (db2 : List EntityRow) (cand : String),
        permalinkTaken db2 cand = true →
          ∃ N, 1 ≤ N ∧
            allocate_unique_permalink db2 cand = numberedPermalink cand N ∧
            permalinkTaken db2 (numberedPermalink cand N) = false ∧
            ∀ m, 1 ≤ m → m < N →
              permalinkTaken db2 (numberedPermalink cand m) = true := by
  constructor
  · have hsub : (db.filter
        (fun e => (lookupFile tree e.file_path).isSome)).Sublist db :=
      List.filter_sublist db
    have h1f : (dbPaths (db.filter
        (fun e => (lookupFile tree e.file_path).isSome))).Nodup :=
      hdb1.sublist (hsub.map _)
    have h2f : ((db.filter
        (fun e => (lookupFile tree e.file_path).isSome)).map
        (fun e => e.permalink)).Nodup :=
      hdb2.sublist (hsub.map _)
    have hfold := foldl_pass_nodup (tree.filter (isChangedFile db))
      { db := db.filter (fun e => (lookupFile tree e.file_path).isSome),
        tree := tree, writes := [] } h1f h2f
    exact commitChecksums_permalinks_nodup _ _ hfold.2
  · intro db2 cand h
    exact allocate_unique_spec db2 cand h

/-- Witness for `sync_permalinks_unique` at the colliding-permalink
scenario: uniqueness after the sync, and the smallest-suffix property at
the taken candidate `one`. -/
theorem sync_permalinks_unique_witness :
    (dbPaths [(⟨"one.md", "one", some ⟨some "one", "b1"⟩⟩ : EntityRow),
        ⟨"two.md", "two", some ⟨some "two", "b2"⟩⟩]).Nodup ∧
      (((sync
          [⟨"one.md", "one", some ⟨some "one", "b1"⟩⟩,
            ⟨"two.md", "two", some ⟨some "two", "b2"⟩⟩]
          [("one.md", ⟨some "one", "b1"⟩),
            ("two.md", ⟨some "one", "b2x"⟩),
            ("new.md", ⟨some "one", "b3"⟩)]).db.map
          (fun e => e.permalink)).Nodup) :=
  ⟨by decide,
    (sync_permalinks_unique
        [⟨"one.md", "one", some ⟨some "one", "b1"⟩⟩,
          ⟨"two.md", "two", some ⟨some "two", "b2"⟩⟩]
        [("one.md", ⟨some "one", "b1"⟩),
          ("two.md", ⟨some "one", "b2x"⟩),
          ("new.md", ⟨some "one", "b3"⟩)]
        (by decide) (by decide)).1⟩

end BasicMemory
